import Mathlib

/-!
Verification development for the streaming chat frontend
(`src/frontend/src/app/page.tsx`, `src/frontend/src/components/*`).

Content strings are modelled as `List Char` (named `Str`), byte streams as
`List Nat`. Each definition carries a comment naming the source location it
embeds; components realized by external libraries (the markdown engine,
`TextDecoder`, `mermaid`) are modelled from the specification and marked so.
-/

set_option maxRecDepth 4000

/-- Character lists stand in for JavaScript strings. -/
abbrev Str := List Char

/-- The opening brace character, `0x7b`. -/
def openB : Char := '\x7b'

/-- The closing brace character, `0x7d`. -/
def closeB : Char := '\x7d'

/-! ## Minimal JSON value parser

`page.tsx` calls `JSON.parse` on each candidate record. `JSON.parse` is a
platform primitive; we model the fragment this application's transport
actually carries (objects whose keys and values are strings, per spec section 6:
payload objects carry a `content` text field), with `\"`-style escapes and no
interior whitespace. A parse that does not consume the whole input fails,
as `JSON.parse` does. -/

/-- Translate a JSON escape character following a backslash. -/
def escChar (c : Char) : Char :=
  if c = 'n' then '\n' else if c = 't' then '\t' else if c = 'r' then '\r' else c

/-- Parse the remainder of a JSON string after its opening quote: returns the
decoded value and the text after the closing quote. -/
def parseJStringRest : Str → Option (Str × Str)
  | [] => none
  | c :: r =>
    if c = '"' then some ([], r)
    else if c = '\\' then
      match r with
      | [] => none
      | e :: r2 =>
        match parseJStringRest r2 with
        | some (v, rest) => some (escChar e :: v, rest)
        | none => none
    else
      match parseJStringRest r with
      | some (v, rest) => some (c :: v, rest)
      | none => none

/-- Parse a JSON string literal (leading quote included). -/
def parseJString (s : Str) : Option (Str × Str) :=
  match s with
  | c :: r => if c = '"' then parseJStringRest r else none
  | [] => none

/-- Parse the field list of a JSON object after the opening brace; fuel bounds
the number of fields. Returns the fields and the text after the closing brace. -/
def parseFields : Nat → Str → Option (List (Str × Str) × Str)
  | 0, _ => none
  | f + 1, s =>
    match s with
    | c :: r =>
      if c = closeB then some ([], r)
      else
        match parseJString (c :: r) with
        | none => none
        | some (k, rest1) =>
          match rest1 with
          | c1 :: rest2 =>
            if c1 = ':' then
              match parseJString rest2 with
              | none => none
              | some (v, rest3) =>
                match rest3 with
                | c2 :: rest4 =>
                  if c2 = ',' then
                    match parseFields f rest4 with
                    | some (fs, rest5) => some ((k, v) :: fs, rest5)
                    | none => none
                  else if c2 = closeB then some ([(k, v)], rest4)
                  else none
                | [] => none
            else none
          | [] => none
    | [] => none

/-- Parse a complete JSON object (string-valued fields); the whole input must
be consumed, as with `JSON.parse`. -/
def parseObj (s : Str) : Option (List (Str × Str)) :=
  match s with
  | c :: r =>
    if c = openB then
      match parseFields (r.length + 1) r with
      | some (fs, []) => some fs
      | _ => none
    else none
  | [] => none

/-- Look up a field by key in a parsed object. -/
def lookupField (k : Str) : List (Str × Str) → Option Str
  | [] => none
  | (k', v) :: rest => if k' = k then some v else lookupField k rest

/-! ## Transport decoder / stream assembler

Embeds the inner record loop of `processStream` (`page.tsx` lines 336-380).
The loop state is the unconsumed suffix of `partialData` (everything from
`lastJsonEnd` on), the accumulated assistant message content
(`assistantMessage.content`), and the `isLoading` flag that the `[DONE]`
sentinel clears. -/

/-- The key string `content`. -/
def contentKey : Str := ("content".data)

/-- The sentinel payload `[DONE]`. -/
def doneStr : Str := ("[DONE]".data)

/-- One decision of the record loop on the current buffer suffix:
`jsonStart = indexOf('{', lastJsonEnd)` is the text from the first open brace
(`stop` when there is none), `jsonEnd = indexOf('}', jsonStart) + 1` the first
close brace after it (`stop` when there is none, or when `JSON.parse` of the
slice throws); a record whose truthy `content` equals `[DONE]` yields
`doneRec`; a record with a truthy `content` yields `content`; any other
parsed record is consumed silently (`skip`). -/
inductive StepR where
  | stop
  | doneRec
  | skip (tail : Str)
  | contentRec (t : Str) (tail : Str)
deriving DecidableEq

/-- The buffer text from the first open brace on (`jsonStart`); empty when
there is no open brace. -/
def cutOf (s : Str) : Str := s.dropWhile (fun c => !(c == openB))

/-- The candidate record text before its first close brace. -/
def bodyOf (s : Str) : Str := (cutOf s).takeWhile (fun c => !(c == closeB))

/-- The buffer text from the first close brace after `jsonStart` on; empty
when there is none (`jsonEnd === 0`). -/
def restOf (s : Str) : Str := (cutOf s).dropWhile (fun c => !(c == closeB))

/-- Analyze the buffer suffix exactly as one iteration of the inner `while`
loop of `processStream` does. -/
def scanStep (s : Str) : StepR :=
  match restOf s with
  | [] => .stop
  | _ :: tail =>
    match parseObj (bodyOf s ++ [closeB]) with
    | none => .stop
    | some fields =>
      match lookupField contentKey fields with
      | none => .skip tail
      | some t =>
        if t = doneStr then .doneRec
        else if t = [] then .skip tail
        else .contentRec t tail

/-- The record loop, fuel-bounded (fuel larger than the buffer length never
runs out, see `scanLoopF_fuel`). Returns the new buffer suffix, the new
message content, and the `isLoading` flag. -/
def scanLoopF : Nat → Str → Str → Bool → Str × Str × Bool
  | 0, s, c, l => (s, c, l)
  | f + 1, s, c, l =>
    match scanStep s with
    | .stop => (s, c, l)
    | .doneRec => (s, c, false)
    | .skip tail => scanLoopF f tail c l
    | .contentRec t tail => scanLoopF f tail (c ++ t) l

/-- Run the record loop to completion on a buffer. -/
def runScan (s : Str) (c : Str) (l : Bool) : Str × Str × Bool :=
  scanLoopF (s.length + 1) s c l

/-- Decoder/assembler state across chunks: `buf` is `partialData`, `content`
the assistant message content, `isLoading` the loading flag (the spec's
"finalized" is `isLoading = false`). -/
structure StreamState where
  buf : Str
  content : Str
  isLoading : Bool
deriving DecidableEq

/-- Initial state when streaming begins: empty buffer, empty assistant
message, loading. -/
def initStream : StreamState := ⟨[], [], true⟩

/-- Apply one decoded text chunk: `partialData += chunk` followed by the
record loop (`page.tsx` lines 332-380). -/
def processChunk (st : StreamState) (chunk : Str) : StreamState :=
  let r := runScan (st.buf ++ chunk) st.content st.isLoading
  ⟨r.1, r.2.1, r.2.2⟩

/-- Apply a sequence of decoded text chunks in arrival order. -/
def processChunks (st : StreamState) (chunks : List Str) : StreamState :=
  chunks.foldl processChunk st

/-! ## Incremental UTF-8 decoder

Modelled from the spec: the `TextDecoder` used at `page.tsx` lines 315-332
(`decoder.decode(value, \x7b stream: true \x7d)`) is a platform API. Spec
sections 4.1 and 6 require a UTF-8-safe incremental decode that buffers a
partially received multi-byte sequence across chunks. We model it as a
byte-at-a-time state machine: `acc` holds the code point bits collected so
far and `needed` the number of continuation bytes still expected. Invalid
bytes yield the replacement character. -/

/-- Decoder carry-over between bytes/chunks. -/
structure U8State where
  acc : Nat
  needed : Nat
deriving DecidableEq

/-- The Unicode replacement character. -/
def u8Repl : Char := Char.ofNat 0xFFFD

/-- Process one byte with no sequence in progress. -/
def u8StepIdle (b : Nat) : U8State × List Char :=
  if b < 0x80 then (⟨0, 0⟩, [Char.ofNat b])
  else if b < 0xC0 then (⟨0, 0⟩, [u8Repl])
  else if b < 0xE0 then (⟨b % 0x20, 1⟩, [])
  else if b < 0xF0 then (⟨b % 0x10, 2⟩, [])
  else if b < 0xF8 then (⟨b % 0x08, 3⟩, [])
  else (⟨0, 0⟩, [u8Repl])

/-- Process one byte in an arbitrary decoder state. -/
def u8Step (st : U8State) (b : Nat) : U8State × List Char :=
  if st.needed = 0 then u8StepIdle b
  else if 0x80 ≤ b ∧ b < 0xC0 then
    if st.needed = 1 then (⟨0, 0⟩, [Char.ofNat (st.acc * 0x40 + b % 0x40)])
    else (⟨st.acc * 0x40 + b % 0x40, st.needed - 1⟩, [])
  else
    let r := u8StepIdle b
    (r.1, u8Repl :: r.2)

/-- Decode one chunk of bytes, threading the carry-over state. -/
def u8DecodeChunk (st : U8State) (bs : List Nat) : U8State × Str :=
  bs.foldl (fun p b => ((u8Step p.1 b).1, p.2 ++ (u8Step p.1 b).2)) (st, [])

/-- Decode a chunked byte stream incrementally, concatenating the texts
produced for the successive chunks. -/
def u8DecodeStream (chunks : List (List Nat)) : U8State × Str :=
  chunks.foldl (fun p c => ((u8DecodeChunk p.1 c).1, p.2 ++ (u8DecodeChunk p.1 c).2)) (⟨0, 0⟩, [])

/-! ## Stream assembler: sessions, messages, titles

Message and session shapes follow `src/unnamed/part_000` (`Message`,
`ChatSession`) and spec section 3; the assembler operations follow spec
section 4.2, with `applyDelta` embedding `assistantMessage.content +=
data.content` (`page.tsx` line 363) and the title derivation embedding the
effect at `page.tsx` lines 104-147. -/

/-- Message roles. -/
inductive Role where
  | user
  | assistant
deriving DecidableEq

/-- A chat message: role, content, and the spec's finalized flag. -/
structure Msg where
  role : Role
  content : Str
  finalized : Bool
deriving DecidableEq

/-- Assembler state: the session's ordered message list and its title
(`none` until derived). -/
structure AsmState where
  messages : List Msg
  title : Option Str
deriving DecidableEq

/-- Title derivation (`page.tsx` line 108):
`content.slice(0, 30) + (content.length > 30 ? '...' : '')`. -/
def deriveTitle (t : Str) : Str :=
  t.take 30 ++ (if 30 < t.length then ("...".data) else [])

/-- The title effect (`page.tsx` lines 104-108): whenever the session has
exactly one message and it is a user message, derive and store the title. -/
def titleEffect (st : AsmState) : AsmState :=
  match st.messages with
  | [m] => if m.role = Role.user then ⟨st.messages, some (deriveTitle m.content)⟩ else st
  | _ => st

/-- Append `t` to the last message provided it is an unfinalized assistant
message; otherwise leave the list unchanged (spec section 4.2 `applyDelta`,
`page.tsx` lines 363-368). -/
def updateLastMsg : List Msg → Str → List Msg
  | [], _ => []
  | [m], t =>
    if m.role = Role.assistant ∧ m.finalized = false then
      [⟨m.role, m.content ++ t, m.finalized⟩]
    else [m]
  | m :: m2 :: rest, t => m :: updateLastMsg (m2 :: rest) t

/-- Mark the last message finalized provided it is an unfinalized assistant
message (spec section 4.2 `finalize`). -/
def finalizeLast : List Msg → List Msg
  | [] => []
  | [m] =>
    if m.role = Role.assistant ∧ m.finalized = false then
      [⟨m.role, m.content, true⟩]
    else [m]
  | m :: m2 :: rest => m :: finalizeLast (m2 :: rest)

/-- Content of the last message (empty when there is none). -/
def lastContent : List Msg → Str
  | [] => []
  | [m] => m.content
  | _ :: m2 :: rest => lastContent (m2 :: rest)

/-- Whether the last message is an unfinalized assistant message. -/
def lastIsOpenAsst : List Msg → Bool
  | [] => false
  | [m] => decide (m.role = Role.assistant ∧ m.finalized = false)
  | _ :: m2 :: rest => lastIsOpenAsst (m2 :: rest)

/-- Assembler operations (spec section 4.2). -/
inductive Op where
  | user (t : Str)
  | beginAssistant
  | delta (t : Str)
  | finalizeMsg

/-- One assembler step followed by the title effect (the effect re-runs after
every message-list change, as the `useEffect` dependency list makes it). -/
def asmStep (st : AsmState) (op : Op) : AsmState :=
  match op with
  | .user t => titleEffect ⟨st.messages ++ [⟨Role.user, t, true⟩], st.title⟩
  | .beginAssistant => titleEffect ⟨st.messages ++ [⟨Role.assistant, [], false⟩], st.title⟩
  | .delta t => titleEffect ⟨updateLastMsg st.messages t, st.title⟩
  | .finalizeMsg => titleEffect ⟨finalizeLast st.messages, st.title⟩

/-- Apply a sequence of assembler operations. -/
def applyOps (st : AsmState) (ops : List Op) : AsmState :=
  ops.foldl asmStep st

/-- Whether the single-message title premise is consistent with a recorded
title `τ` (used to state title immutability). -/
def firstMsgOk : List Msg → Str → Bool
  | [m], τ => if m.role = Role.user then deriveTitle m.content == τ else true
  | _, _ => true

/-- The title has been derived from the session's first (user) message and
recorded as `τ`. -/
def titleStable (st : AsmState) (τ : Str) : Prop :=
  st.title = some τ ∧ st.messages ≠ [] ∧ firstMsgOk st.messages τ = true

/-! ## Markdown block scanner

Modelled from the spec: the repository renders message markdown through the
external `react-markdown` engine (`MarkdownRenderer`,
`model-selector.tsx` lines 233-308), whose parsing code is not part of this
repository. The scanner below follows spec section 4.3: a single pass over
the lines of the entire accumulated content, with the given construct
priority order. Inline span substitution (spec 4.3.7) is presentational and
not modelled: a `para` block carries the raw line text. Blank lines emit no
block. -/

/-- Blocks produced by the scanner (spec section 3). A diagram block's render
state is owned by the renderer component, so it is not part of the scanned
block. -/
inductive Block where
  | heading (level : Nat) (text : Str)
  | para (text : Str)
  | codeBlock (language : Str) (text : Str)
  | diagramBlock (text : Str)
  | table (headerCells : List Str) (rows : List (List Str))
  | blockquote (text : Str)
  | listItem (ordered : Bool) (text : Str)
  | thematicBreak
deriving DecidableEq

/-- Horizontal whitespace. -/
def isWs (c : Char) : Bool := c == ' ' || c == '\t' || c == '\r'

/-- Trim horizontal whitespace from both ends of a line. -/
def trimWs (s : Str) : Str :=
  ((s.dropWhile isWs).reverse.dropWhile isWs).reverse

/-- Split a string on a separator character (a trailing separator yields a
trailing empty piece). -/
def splitOnChar (sep : Char) : Str → List Str
  | [] => [[]]
  | c :: r =>
    if c = sep then [] :: splitOnChar sep r
    else
      match splitOnChar sep r with
      | [] => [[c]]
      | l :: ls => (c :: l) :: ls

/-- Split content into lines. -/
def splitLines (s : Str) : List Str := splitOnChar '\n' s

/-- Join lines back with newlines. -/
def joinLines : List Str → Str
  | [] => []
  | [l] => l
  | l :: l2 :: ls => l ++ '\n' :: joinLines (l2 :: ls)

/-- The backtick character. -/
def btick : Char := '\x60'

/-- The triple-backtick fence marker. -/
def fenceMarker : Str := [btick, btick, btick]

/-- The diagram language tag. -/
def mermaidTag : Str := ("mermaid".data)

/-- A fence opener: the line starts with three backticks. -/
def isFenceOpenB (l : Str) : Bool :=
  match l with
  | a :: b :: c :: _ => a == btick && b == btick && c == btick
  | _ => false

/-- The text after the three opening backticks (the language tag region). -/
def fenceLang (l : Str) : Str :=
  match l with
  | _ :: _ :: _ :: r => r
  | _ => []

/-- A fence closer: the line is three backticks up to surrounding whitespace. -/
def isFenceCloseB (l : Str) : Bool := trimWs l == fenceMarker

/-- Build the block for a completed (or force-closed) fence: tag `mermaid`
classifies as a diagram, anything else as code (spec 4.3.1). -/
def mkFenceBlock (lang : Str) (body : List Str) : Block :=
  if lang == mermaidTag then .diagramBlock (joinLines body)
  else .codeBlock lang (joinLines body)

/-- A pipe-table line: starts and ends with a pipe after trimming. -/
def isTableLineB (l : Str) : Bool :=
  let t := trimWs l
  decide (2 ≤ t.length) && t.headI == '|' && t.getLastI == '|'

/-- A table separator row: a pipe line whose cells are runs of dashes
(with optional alignment colons and spaces). -/
def isTableSepB (l : Str) : Bool :=
  isTableLineB l &&
    (trimWs l).all (fun c => c == '|' || c == '-' || c == ':' || c == ' ') &&
    (trimWs l).any (fun c => c == '-')

/-- Cells of a pipe-table line: the text between the outer pipes, split on
`|`, each cell trimmed. -/
def cellsOf (l : Str) : List Str :=
  (splitOnChar '|' ((trimWs l).drop 1).dropLast).map trimWs

/-- Pad (or cut) a row to exactly `n` cells; missing cells become empty
strings, never an error (spec 4.3.2). -/
def padTo (n : Nat) (xs : List Str) : List Str :=
  (xs ++ List.replicate n []).take n

/-- Build a table block from the header line and the data-row lines. -/
def mkTable (hdr : Str) (rows : List Str) : Block :=
  let h := cellsOf hdr
  .table h (rows.map fun r => padTo h.length (cellsOf r))

/-- Number of leading `#` characters. -/
def headingLevel (l : Str) : Nat := (l.takeWhile (fun c => c == '#')).length

/-- A heading line: one to six `#` followed by whitespace (spec 4.3.3). -/
def isHeadingB (l : Str) : Bool :=
  let k := headingLevel l
  decide (1 ≤ k) && decide (k ≤ 6) &&
    (match l.drop k with
     | c :: _ => isWs c
     | [] => false)

/-- An unordered list marker: `-`, `*` or `+` followed by whitespace. -/
def isUnorderedB (l : Str) : Bool :=
  match l with
  | c :: c2 :: _ => (c == '-' || c == '*' || c == '+') && isWs c2
  | _ => false

/-- An ordered list marker: digits, a dot, then whitespace. -/
def isOrderedB (l : Str) : Bool :=
  let ds := l.takeWhile (fun c => c.isDigit)
  !ds.isEmpty &&
    (match l.drop ds.length with
     | '.' :: c :: _ => isWs c
     | _ => false)

/-- Text of an ordered list item (after the `N.` marker). -/
def orderedText (l : Str) : Str :=
  trimWs (l.drop ((l.takeWhile (fun c => c.isDigit)).length + 1))

/-- A thematic break: a line of three or more dashes (spec 4.3.6). -/
def isBreakB (l : Str) : Bool :=
  decide (3 ≤ l.length) && l.all (fun c => c == '-')

/-- Classify one line that is part of no multi-line construct
(spec 4.3.3-4.3.7 priority order). -/
def lineBlock (l : Str) : List Block :=
  if isHeadingB l then [.heading (headingLevel l) (trimWs (l.drop (headingLevel l)))]
  else if l.headI == '>' && decide (l ≠ []) then [.blockquote (trimWs (l.drop 1))]
  else if isUnorderedB l then [.listItem false (trimWs (l.drop 2))]
  else if isOrderedB l then [.listItem true (orderedText l)]
  else if isBreakB l then [.thematicBreak]
  else if trimWs l == ([] : Str) then []
  else [.para l]

/-- The line scanner, fuel-bounded (fuel larger than the number of lines never
runs out). An unterminated fence emits nothing while the message streams and
is force-closed when `finalized` (spec 4.3.1 and section 4.3 closing note). -/
def scanLinesF : Nat → List Str → Bool → List Block
  | 0, _, _ => []
  | _ + 1, [], _ => []
  | f + 1, l :: rest, finalized =>
    if isFenceOpenB l then
      if (rest.dropWhile (fun x => !isFenceCloseB x)).isEmpty then
        if finalized then
          [mkFenceBlock (trimWs (fenceLang l)) (rest.takeWhile (fun x => !isFenceCloseB x))]
        else []
      else
        mkFenceBlock (trimWs (fenceLang l)) (rest.takeWhile (fun x => !isFenceCloseB x)) ::
          scanLinesF f (rest.dropWhile (fun x => !isFenceCloseB x)).tail finalized
    else
      match rest with
      | l2 :: rest2 =>
        if isTableLineB l && isTableSepB l2 then
          mkTable l (rest2.takeWhile isTableLineB) ::
            scanLinesF f (rest2.dropWhile isTableLineB) finalized
        else lineBlock l ++ scanLinesF f (l2 :: rest2) finalized
      | [] => lineBlock l

/-- Scan the entire accumulated content (spec section 4.3: invoked on the full
text after every mutation). -/
def scanBlocks (content : Str) (finalized : Bool) : List Block :=
  scanLinesF ((splitLines content).length + 1) (splitLines content) finalized

/-! ## Diagram and code renderer

Embeds the `renderContent` effect of `CodeBlock`
(`code-block.tsx` lines 41-94). The external `mermaid.render` syntax check is
abstracted as a boolean oracle `valid`, the produced SVG and the highlighter
as string functions. The effect re-runs exactly when its dependency pair
`(language, value)` changes; it receives no information about whether the
owning message is finalized. -/

/-- Spec section 3 `RenderState`. -/
inductive RenderState where
  | empty
  | validating
  | rendering
  | rendered (output : Str)
  | failed (reason : Str)
deriving DecidableEq

/-- Component outcome: `renderedContent`, `error` and `isLoading` as held by
the `CodeBlock` component after the effect settles. -/
structure RenderOutcome where
  renderedContent : Str
  error : Option Str
  isLoading : Bool
deriving DecidableEq

/-- The diagram failure message set at `code-block.tsx` line 62. -/
def mermaidErrMsg : Str :=
  ("Failed to render diagram. Please check the syntax.".data)

/-- Escape HTML as the plain-text branch does (`code-block.tsx` lines 75-82);
the sequential `replace` calls amount to this per-character map. -/
def escapeHtml (s : Str) : Str :=
  s.flatMap fun c =>
    if c = '&' then ("&amp;".data)
    else if c = '<' then ("&lt;".data)
    else if c = '>' then ("&gt;".data)
    else if c = '"' then ("&quot;".data)
    else if c = '\'' then ("&#039;".data)
    else [c]

/-- The settled outcome of the `renderContent` effect for a `(language,
value)` pair (`code-block.tsx` lines 41-94). -/
def codeBlockRender (valid : Str → Bool) (svgOf hlOf : Str → Str)
    (language value : Str) : RenderOutcome :=
  if language = mermaidTag then
    if valid (trimWs value) then ⟨svgOf (trimWs value), none, false⟩
    else ⟨value, some mermaidErrMsg, false⟩
  else if language ≠ [] then ⟨hlOf value, none, false⟩
  else ⟨escapeHtml value, none, false⟩

/-- Map the component state onto the spec's `RenderState`: a recorded error is
`Failed`, a pending load is `Validating`, otherwise the block is `Rendered`. -/
def outcomeState (o : RenderOutcome) : RenderState :=
  match o.error with
  | some r => .failed r
  | none => if o.isLoading then .validating else .rendered o.renderedContent

/-! ## Session-list title update

Embeds `page.tsx` lines 110-145: the `updateSession` persistence call
resolves (`then` branch) or rejects (`catch` branch); each branch is
transcribed separately, exactly as written. -/

/-- A session as the title effect touches it. -/
structure SessionR where
  id : Str
  title : Str
  preview : Str
deriving DecidableEq

/-- Update the sessions list entry for `sid` (`setSessions` mapper,
`page.tsx` lines 114-120 and 132-138). -/
def applySessionsUpdate (sessions : List SessionR) (sid τ pv : Str) : List SessionR :=
  sessions.map fun s => if s.id = sid then ⟨s.id, τ, pv⟩ else s

/-- Update the current session if it matches `sid` (`setCurrentSession`
mapper, `page.tsx` lines 123-127 and 140-144). -/
def applyCurrentUpdate (cur : Option SessionR) (sid τ pv : Str) : Option SessionR :=
  match cur with
  | some p => if p.id = sid then some ⟨p.id, τ, pv⟩ else some p
  | none => none

/-- The `then` branch of the persistence call (`page.tsx` lines 112-128). -/
def thenBranch (sessions : List SessionR) (cur : Option SessionR)
    (sid τ pv : Str) : List SessionR × Option SessionR :=
  (applySessionsUpdate sessions sid τ pv, applyCurrentUpdate cur sid τ pv)

/-- The `catch` branch (`page.tsx` lines 129-145): the error is logged and
the same local updates run. -/
def catchBranch (sessions : List SessionR) (cur : Option SessionR)
    (sid τ pv : Str) : List SessionR × Option SessionR :=
  (applySessionsUpdate sessions sid τ pv, applyCurrentUpdate cur sid τ pv)

/-- The whole title-update effect (`page.tsx` lines 104-147): when the session
has exactly one message and it is a user message, derive the title and run
the branch selected by the persistence outcome `ok`. -/
def titleUpdateEffect (ok : Bool) (msgs : List Msg) (sessions : List SessionR)
    (cur : Option SessionR) (sid : Str) : List SessionR × Option SessionR :=
  match msgs with
  | [m] =>
    if m.role = Role.user then
      if ok then thenBranch sessions cur sid (deriveTitle m.content) m.content
      else catchBranch sessions cur sid (deriveTitle m.content) m.content
    else (sessions, cur)
  | _ => (sessions, cur)

/-! ## Well-behaved record streams (for the amended framing claim) -/

/-- A transport record carrying text `t`, as the backend emits them. -/
def recordOf (t : Str) : Str :=
  ("\x7b\"content\":\"".data) ++ t ++ ("\"\x7d".data)

/-- Payload text free of characters that interact with the naive slicing:
quotes, backslashes and braces. -/
def cleanText (t : Str) : Prop :=
  ∀ c ∈ t, c ≠ '"' ∧ c ≠ '\\' ∧ c ≠ openB ∧ c ≠ closeB

/-- A payload the decoder forwards as message text. -/
def goodText (t : Str) : Prop :=
  t ≠ [] ∧ t ≠ doneStr ∧ cleanText t

/-- Invariant: once the loading flag is down, the sentinel record sits at the
front of the buffer. -/
def DoneSt (st : StreamState) : Prop :=
  st.isLoading = false → scanStep st.buf = .doneRec

instance (t : Str) : Decidable (cleanText t) := by
  unfold cleanText
  exact List.decidableBAll _ t

instance (t : Str) : Decidable (goodText t) := by
  unfold goodText
  infer_instance

/-- First raw chunk of spec Scenario A. -/
def chunkA : Str := ("data: \x7b\"content\":\"Hel".data)

/-- Second raw chunk of spec Scenario A. -/
def chunkB : Str := ("lo\"\x7d\n\ndata: \x7b\"content\":\"[DONE]\"\x7d\n\n".data)

/-- A complete JSON object whose string value contains a close brace. -/
def braceBuf : Str := ("\x7b\"content\":\"a\x7db\"\x7d".data)

/-! ## Helper lemmas on lists -/

/-- Dropping while a predicate holds of every element drops everything. -/
theorem dropWhileAll {α : Type} {p : α → Bool} {xs : List α}
    (h : ∀ x ∈ xs, p x = true) : xs.dropWhile p = [] :=
  List.dropWhile_eq_nil_iff.2 h

/-- Taking while a predicate holds of every element takes everything. -/
theorem takeWhileAll {α : Type} {p : α → Bool} {xs : List α}
    (h : ∀ x ∈ xs, p x = true) : xs.takeWhile p = xs :=
  List.takeWhile_eq_self_iff.2 h

/-- `takeWhile` stops exactly at the first failing element. -/
theorem takeWhileAppStop {α : Type} {p : α → Bool} {A : List α} {c : α}
    (hA : ∀ a ∈ A, p a = true) (hc : p c = false) (B : List α) :
    (A ++ c :: B).takeWhile p = A := by
  induction A with
  | nil => simp [List.takeWhile_cons, hc]
  | cons a A ih =>
    have ha : p a = true := hA a (by simp)
    simp only [List.cons_append, List.takeWhile_cons, ha]
    simp [ih fun x hx => hA x (by simp [hx])]

/-- `dropWhile` keeps everything from the first failing element on. -/
theorem dropWhileAppStop {α : Type} {p : α → Bool} {A : List α} {c : α}
    (hA : ∀ a ∈ A, p a = true) (hc : p c = false) (B : List α) :
    (A ++ c :: B).dropWhile p = c :: B := by
  induction A with
  | nil => simp [List.dropWhile_cons, hc]
  | cons a A ih =>
    have ha : p a = true := hA a (by simp)
    simp only [List.cons_append, List.dropWhile_cons, ha]
    simp [ih fun x hx => hA x (by simp [hx])]

/-- When `dropWhile` already hits a failing element inside `xs`, appending
more text does not change where it stops. -/
theorem dropWhileAppNe {α : Type} {p : α → Bool} {xs : List α}
    (h : xs.dropWhile p ≠ []) (ys : List α) :
    (xs ++ ys).dropWhile p = xs.dropWhile p ++ ys := by
  induction xs with
  | nil => simp at h
  | cons a A ih =>
    by_cases ha : p a = true
    · simp only [List.cons_append, List.dropWhile_cons, ha, if_true]
      simp only [List.dropWhile_cons, ha, if_true] at h
      exact ih h
    · have ha' : p a = false := by revert ha; cases p a <;> simp
      simp [List.cons_append, List.dropWhile_cons, ha']

/-- When `dropWhile` already hits a failing element inside `xs`, appending
more text does not change the taken part either. -/
theorem takeWhileAppNe {α : Type} {p : α → Bool} {xs : List α}
    (h : xs.dropWhile p ≠ []) (ys : List α) :
    (xs ++ ys).takeWhile p = xs.takeWhile p := by
  induction xs with
  | nil => simp at h
  | cons a A ih =>
    by_cases ha : p a = true
    · simp only [List.cons_append, List.takeWhile_cons, ha, if_true]
      simp only [List.dropWhile_cons, ha, if_true] at h
      rw [ih h]
    · have ha' : p a = false := by revert ha; cases p a <;> simp
      simp [List.cons_append, List.takeWhile_cons, ha']

/-- `dropWhile` never lengthens a list. -/
theorem lenDropWhileLe {α : Type} (p : α → Bool) (xs : List α) :
    (xs.dropWhile p).length ≤ xs.length := by
  induction xs with
  | nil => simp
  | cons a A ih =>
    by_cases ha : p a = true
    · simp only [List.dropWhile_cons, ha, if_true]
      exact Nat.le_succ_of_le ih
    · have ha' : p a = false := by revert ha; cases p a <;> simp
      simp [List.dropWhile_cons, ha']

/-- Elements surviving `dropWhile` come from the original list. -/
theorem memOfMemDropWhile {α : Type} {p : α → Bool} {x : α} {xs : List α}
    (h : x ∈ xs.dropWhile p) : x ∈ xs := by
  induction xs with
  | nil => simp at h
  | cons a A ih =>
    by_cases ha : p a = true
    · simp only [List.dropWhile_cons, ha, if_true] at h
      exact List.mem_cons_of_mem a (ih h)
    · have ha' : p a = false := by revert ha; cases p a <;> simp
      simp only [List.dropWhile_cons, ha', if_false] at h
      exact h

/-! ## Decoder lemmas -/

/-- The open-brace suffix never lengthens the buffer. -/
theorem cutOf_len_le (s : Str) : (cutOf s).length ≤ s.length :=
  lenDropWhileLe _ s

/-- A consuming step strictly shrinks the buffer suffix. -/
theorem restOf_cons_len {s : Str} {x : Char} {tail : Str}
    (h : restOf s = x :: tail) : tail.length < s.length := by
  have h1 : (restOf s).length ≤ (cutOf s).length := lenDropWhileLe _ _
  rw [h] at h1
  have := cutOf_len_le s
  simp only [List.length_cons] at h1
  omega

/-- The buffer suffix a `skip` step leaves is strictly shorter. -/
theorem scanStep_skip_len {s tail : Str} (h : scanStep s = .skip tail) :
    tail.length < s.length := by
  unfold scanStep at h
  cases hr : restOf s with
  | nil => simp [hr] at h
  | cons x xs =>
    simp only [hr] at h
    have hx : xs = tail := by
      cases hp : parseObj (bodyOf s ++ [closeB]) with
      | none => simp [hp] at h
      | some fields =>
        simp only [hp] at h
        cases hl : lookupField contentKey fields with
        | none =>
          simp only [hl] at h
          injection h
        | some t =>
          simp only [hl] at h
          by_cases h1 : t = doneStr
          · rw [if_pos h1] at h; exact absurd h (by simp)
          · rw [if_neg h1] at h
            by_cases h2 : t = []
            · rw [if_pos h2] at h; injection h
            · rw [if_neg h2] at h; exact absurd h (by simp)
    exact hx ▸ restOf_cons_len hr

/-- The buffer suffix a `contentRec` step leaves is strictly shorter. -/
theorem scanStep_content_len {s t tail : Str} (h : scanStep s = .contentRec t tail) :
    tail.length < s.length := by
  unfold scanStep at h
  cases hr : restOf s with
  | nil => simp [hr] at h
  | cons x xs =>
    simp only [hr] at h
    have hx : xs = tail := by
      cases hp : parseObj (bodyOf s ++ [closeB]) with
      | none => simp [hp] at h
      | some fields =>
        simp only [hp] at h
        cases hl : lookupField contentKey fields with
        | none =>
          simp only [hl] at h
          exact absurd h (by simp)
        | some u =>
          simp only [hl] at h
          by_cases h1 : u = doneStr
          · rw [if_pos h1] at h; exact absurd h (by simp)
          · rw [if_neg h1] at h
            by_cases h2 : u = []
            · rw [if_pos h2] at h; exact absurd h (by simp)
            · rw [if_neg h2] at h
              injection h with hu hx
    exact hx ▸ restOf_cons_len hr

/-- The record loop does not depend on the fuel, provided the fuel exceeds
the buffer length. -/
theorem scanLoopF_fuel : ∀ (f g : Nat) (s c : Str) (l : Bool),
    s.length < f → s.length < g → scanLoopF f s c l = scanLoopF g s c l := by
  intro f
  induction f with
  | zero => intro g s c l hf; omega
  | succ f ih =>
    intro g s c l hf hg
    cases g with
    | zero => omega
    | succ g =>
      simp only [scanLoopF]
      cases hs : scanStep s with
      | stop => rfl
      | doneRec => rfl
      | skip tail =>
        have := scanStep_skip_len hs
        exact ih g tail c l (by omega) (by omega)
      | contentRec t tail =>
        have := scanStep_content_len hs
        exact ih g tail (c ++ t) l (by omega) (by omega)

/-- Unfolding `runScan` on a `stop` step. -/
theorem runScan_stop {s : Str} (h : scanStep s = .stop) (c : Str) (l : Bool) :
    runScan s c l = (s, c, l) := by
  unfold runScan
  simp [scanLoopF, h]

/-- Unfolding `runScan` on a `doneRec` step. -/
theorem runScan_done {s : Str} (h : scanStep s = .doneRec) (c : Str) (l : Bool) :
    runScan s c l = (s, c, false) := by
  unfold runScan
  simp [scanLoopF, h]

/-- Unfolding `runScan` on a `skip` step. -/
theorem runScan_skip {s tail : Str} (h : scanStep s = .skip tail) (c : Str) (l : Bool) :
    runScan s c l = runScan tail c l := by
  unfold runScan
  simp only [scanLoopF, h]
  exact scanLoopF_fuel _ _ _ _ _ (scanStep_skip_len h) (Nat.lt_succ_self _)

/-- Unfolding `runScan` on a `contentRec` step. -/
theorem runScan_content {s t tail : Str} (h : scanStep s = .contentRec t tail)
    (c : Str) (l : Bool) :
    runScan s c l = runScan tail (c ++ t) l := by
  unfold runScan
  simp only [scanLoopF, h]
  exact scanLoopF_fuel _ _ _ _ _ (scanStep_content_len h) (Nat.lt_succ_self _)

/-- When a close brace was found, the open-brace suffix is nonempty. -/
theorem cutOf_ne_nil_of_restOf {s : Str} (h : restOf s ≠ []) : cutOf s ≠ [] := by
  intro hc
  apply h
  unfold restOf
  rw [hc]
  rfl

/-- Appending text to a buffer whose record was already delimited does not
move the open brace. -/
theorem cutOf_append {s : Str} (h : cutOf s ≠ []) (d : Str) :
    cutOf (s ++ d) = cutOf s ++ d := by
  unfold cutOf at h ⊢
  exact dropWhileAppNe h d

/-- Appending text does not change a record body already delimited by a
close brace. -/
theorem bodyOf_append {s : Str} (h : restOf s ≠ []) (d : Str) :
    bodyOf (s ++ d) = bodyOf s := by
  unfold bodyOf
  rw [cutOf_append (cutOf_ne_nil_of_restOf h) d]
  unfold restOf at h
  exact takeWhileAppNe h d

/-- Appending text extends the close-brace suffix on the right. -/
theorem restOf_append {s : Str} (h : restOf s ≠ []) (d : Str) :
    restOf (s ++ d) = restOf s ++ d := by
  unfold restOf
  rw [cutOf_append (cutOf_ne_nil_of_restOf h) d]
  unfold restOf at h
  exact dropWhileAppNe h d

/-- A buffer whose front record is the sentinel keeps it at the front when
more text arrives. -/
theorem scanStep_append_done {s : Str} (h : scanStep s = .doneRec) (d : Str) :
    scanStep (s ++ d) = .doneRec := by
  unfold scanStep at h ⊢
  cases hr : restOf s with
  | nil => simp [hr] at h
  | cons x xs =>
    have hne : restOf s ≠ [] := by rw [hr]; simp
    rw [restOf_append hne d, bodyOf_append hne d, hr]
    simp only [hr] at h
    simp only [List.cons_append]
    cases hp : parseObj (bodyOf s ++ [closeB]) with
    | none => simp [hp] at h
    | some fields =>
      simp only [hp] at h ⊢
      cases hl : lookupField contentKey fields with
      | none => simp [hl] at h
      | some t =>
        simp only [hl] at h ⊢
        by_cases h1 : t = doneStr
        · rw [if_pos h1]
        · rw [if_neg h1] at h
          by_cases h2 : t = []
          · rw [if_pos h2] at h; exact absurd h (by simp)
          · rw [if_neg h2] at h; exact absurd h (by simp)

/-- If the loop clears `isLoading`, the resulting buffer has the sentinel
record at its front. -/
theorem scanLoopF_done_inv : ∀ (f : Nat) (s c : Str),
    s.length < f → (scanLoopF f s c true).2.2 = false →
    scanStep (scanLoopF f s c true).1 = .doneRec := by
  intro f
  induction f with
  | zero => intro s c hf; omega
  | succ f ih =>
    intro s c hf
    simp only [scanLoopF]
    cases hs : scanStep s with
    | stop => intro hfalse; simp at hfalse
    | doneRec => intro _; simpa using hs
    | skip tail =>
      have := scanStep_skip_len hs
      exact ih tail c (by omega)
    | contentRec t tail =>
      have := scanStep_content_len hs
      exact ih tail (c ++ t) (by omega)

/-- A chunk applied to a finished stream changes nothing but the buffer. -/
theorem processChunk_frozen {st : StreamState} (hd : DoneSt st)
    (h : st.isLoading = false) (ch : Str) :
    processChunk st ch = ⟨st.buf ++ ch, st.content, false⟩ := by
  unfold processChunk
  rw [h, runScan_done (scanStep_append_done (hd h) ch)]

/-- `processChunk` preserves the sentinel invariant. -/
theorem processChunk_inv {st : StreamState} (hd : DoneSt st) (ch : Str) :
    DoneSt (processChunk st ch) := by
  cases hl : st.isLoading with
  | false =>
    rw [processChunk_frozen hd hl ch]
    intro _
    exact scanStep_append_done (hd hl) ch
  | true =>
    unfold processChunk
    rw [hl]
    intro hfalse
    exact scanLoopF_done_inv _ _ _ (Nat.lt_succ_self _) hfalse

/-- `processChunks` preserves the sentinel invariant. -/
theorem processChunks_inv {st : StreamState} (hd : DoneSt st) (cs : List Str) :
    DoneSt (processChunks st cs) := by
  induction cs generalizing st with
  | nil => exact hd
  | cons c cs ih => exact ih (processChunk_inv hd c)

/-- Chunks applied to a finished stream only accumulate in the buffer. -/
theorem processChunks_frozen {st : StreamState} (hd : DoneSt st)
    (h : st.isLoading = false) (cs : List Str) :
    processChunks st cs = ⟨st.buf ++ cs.flatten, st.content, false⟩ := by
  induction cs generalizing st with
  | nil =>
    cases st with
    | mk b c l => simp_all [processChunks]
  | cons c cs ih =>
    show processChunks (processChunk st c) cs = _
    rw [processChunk_frozen hd h c, ih (by intro _; exact scanStep_append_done (hd h) c) rfl]
    simp

/-- A clean value parses up to its closing quote. -/
theorem parseJStringRest_clean {v : Str} (h : ∀ c ∈ v, c ≠ '"' ∧ c ≠ '\\') (r : Str) :
    parseJStringRest (v ++ '"' :: r) = some (v, r) := by
  induction v with
  | nil =>
    rw [List.nil_append, parseJStringRest.eq_def]
    simp
  | cons c v ih =>
    have hc := h c (by simp)
    have hv : ∀ c ∈ v, c ≠ '"' ∧ c ≠ '\\' := fun x hx => h x (by simp [hx])
    rw [List.cons_append, parseJStringRest.eq_def]
    simp only [if_neg hc.1, if_neg hc.2]
    rw [ih hv]

/-- The record template in explicit character form. -/
theorem recordOf_eq (t : Str) :
    recordOf t = openB :: '"' :: ("content".data ++ '"' :: ':' :: '"' :: (t ++ '"' :: closeB :: [])) := by
  show ("\x7b\"content\":\"".data) ++ t ++ ("\"\x7d".data) = _
  have h1 : ("\x7b\"content\":\"".data) = openB :: '"' :: ("content".data ++ ['"', ':', '"']) := by decide
  have h2 : ("\"\x7d".data) = ['"', closeB] := by decide
  rw [h1, h2]
  simp only [List.cons_append, List.append_assoc, List.nil_append]

/-- Parsing the field part of a clean record yields the single content
field and consumes everything. -/
theorem fields_step (f : Nat) (t : Str) (hct : cleanText t) :
    parseFields (f + 1) ('"' :: ("content".data ++ '"' :: ':' :: '"' :: (t ++ '"' :: closeB :: []))) = some ([(contentKey, t)], []) := by
  rw [parseFields.eq_def]
  dsimp only
  rw [if_neg (show ¬('"' = closeB) by decide)]
  simp only [parseJString, if_pos rfl]
  rw [parseJStringRest_clean (by decide) _]
  simp only [if_true]
  rw [parseJStringRest_clean (fun c hc => ⟨(hct c hc).1, (hct c hc).2.1⟩) _]
  dsimp only
  rw [if_neg (show ¬(closeB = ',') by decide), if_pos rfl]
  rfl

/-- A clean record is one complete JSON object with the given content. -/
theorem parse_recordOf {t : Str} (hct : cleanText t) :
    parseObj (recordOf t) = some [(contentKey, t)] := by
  rw [recordOf_eq, parseObj.eq_def]
  dsimp only
  rw [if_pos rfl]
  rw [fields_step _ t hct]

/-- The first element surviving `dropWhile` fails the predicate. -/
theorem dropWhileHeadFalse {α : Type} {p : α → Bool} {l : List α} {x : α} {xs : List α}
    (h : l.dropWhile p = x :: xs) : p x = false := by
  induction l with
  | nil => simp at h
  | cons a A ih =>
    by_cases pa : p a = true
    · simp only [List.dropWhile_cons, pa, if_true] at h
      exact ih h
    · have pa' : p a = false := by revert pa; cases p a <;> simp
      simp only [List.dropWhile_cons, pa', if_false] at h
      obtain ⟨h1, _⟩ := List.cons.inj h
      rw [← h1]; exact pa'

/-- A buffer without any close brace makes the loop wait for more data. -/
theorem scanStep_noclose {s : Str} (h : closeB ∉ s) : scanStep s = .stop := by
  unfold scanStep
  cases hr : restOf s with
  | nil => rfl
  | cons x xs =>
    exfalso
    have hx : x = closeB := by
      have := dropWhileHeadFalse (p := fun c => !(c == closeB)) hr
      simpa using this
    apply h
    rw [← hx]
    have hmem : x ∈ restOf s := by rw [hr]; simp
    exact memOfMemDropWhile (memOfMemDropWhile hmem)

/-- A record followed by more text, split at the record close brace. -/
theorem recordOf_split (t : Str) (B : Str) :
    recordOf t ++ B
      = (openB :: '"' :: ("content".data ++ '"' :: ':' :: '"' :: (t ++ ['"']))) ++ closeB :: B := by
  rw [recordOf_eq]
  simp

/-- The loop consumes one leading clean record: the sentinel stops the loop,
any other payload is forwarded with the rest of the buffer as tail. -/
theorem scanStep_record {t : Str} (hg : goodText t) (B : Str) :
    scanStep (recordOf t ++ B) = if t = doneStr then .doneRec else .contentRec t B := by
  obtain ⟨hne, hdone, hct⟩ := hg
  have hA : ∀ a ∈ (openB :: '"' :: ("content".data ++ '"' :: ':' :: '"' :: (t ++ ['"']))),
      (fun c => !(c == closeB)) a = true := by
    intro a ha
    suffices hns : a ≠ closeB by simpa using hns
    simp only [List.mem_cons, List.mem_append, List.mem_singleton] at ha
    rcases ha with rfl | rfl | hc | rfl | rfl | rfl | ht | rfl | h0
    · decide
    · decide
    · rcases hc with rfl | rfl | rfl | rfl | rfl | rfl | rfl | h0
      · decide
      · decide
      · decide
      · decide
      · decide
      · decide
      · decide
      · simp at h0
    · decide
    · decide
    · decide
    · exact (hct a ht).2.2.2
    · decide
    · simp at h0
  rw [recordOf_split]
  unfold scanStep
  have hcut : cutOf ((openB :: '"' :: ("content".data ++ '"' :: ':' :: '"' :: (t ++ ['"']))) ++ closeB :: B)
      = (openB :: '"' :: ("content".data ++ '"' :: ':' :: '"' :: (t ++ ['"']))) ++ closeB :: B := by
    unfold cutOf
    rw [List.cons_append, List.dropWhile_cons]
    simp
  have hbody : bodyOf ((openB :: '"' :: ("content".data ++ '"' :: ':' :: '"' :: (t ++ ['"']))) ++ closeB :: B)
      = openB :: '"' :: ("content".data ++ '"' :: ':' :: '"' :: (t ++ ['"'])) := by
    unfold bodyOf
    rw [hcut]
    exact takeWhileAppStop hA (by decide) B
  have hrest : restOf ((openB :: '"' :: ("content".data ++ '"' :: ':' :: '"' :: (t ++ ['"']))) ++ closeB :: B)
      = closeB :: B := by
    unfold restOf
    rw [hcut]
    exact dropWhileAppStop hA (by decide) B
  rw [hrest, hbody]
  have hobj : (openB :: '"' :: ("content".data ++ '"' :: ':' :: '"' :: (t ++ ['"']))) ++ [closeB]
      = recordOf t := by
    have := recordOf_split t []
    simp only [List.append_nil] at this
    rw [this]
  rw [hobj, parse_recordOf hct]
  dsimp only
  rw [lookupField, if_pos rfl]
  dsimp only
  by_cases ht : t = doneStr
  · rw [if_pos ht, if_pos ht]
  · rw [if_neg ht, if_neg ht, if_neg hne]

/-- Well-behaved buffers decode record-by-record: every complete clean record
yields exactly its payload, in order, and the trailing incomplete record
stays in the buffer. -/
theorem runScan_records : ∀ (ts : List Str) (tail c : Str) (l : Bool),
    (∀ t ∈ ts, goodText t) → (∀ t ∈ ts, t ≠ doneStr) → closeB ∉ tail →
    runScan ((ts.map recordOf).flatten ++ tail) c l = (tail, c ++ ts.flatten, l) := by
  intro ts
  induction ts with
  | nil =>
    intro tail c l _ _ htail
    simp only [List.map_nil, List.flatten_nil, List.nil_append, List.flatten_nil,
      List.append_nil]
    exact runScan_stop (scanStep_noclose htail) c l
  | cons t ts ih =>
    intro tail c l hg hd htail
    have hgt : goodText t := hg t (by simp)
    have hstep : scanStep (recordOf t ++ ((ts.map recordOf).flatten ++ tail))
        = .contentRec t ((ts.map recordOf).flatten ++ tail) := by
      rw [scanStep_record hgt, if_neg (hd t (by simp))]
    calc runScan (((t :: ts).map recordOf).flatten ++ tail) c l
        = runScan (recordOf t ++ ((ts.map recordOf).flatten ++ tail)) c l := by
          simp [List.append_assoc]
      _ = runScan ((ts.map recordOf).flatten ++ tail) (c ++ t) l :=
          runScan_content hstep c l
      _ = (tail, (c ++ t) ++ ts.flatten, l) :=
          ih tail (c ++ t) l (fun x hx => hg x (by simp [hx])) (fun x hx => hd x (by simp [hx])) htail
      _ = (tail, c ++ (t :: ts).flatten, l) := by simp

/-! ## Claim theorems: transport decoding -/

/-- C2: decoding the two Scenario A chunks in order gives a final assistant
message content of exactly `Hello` with the message finalized
(`isLoading = false`); the `[DONE]` record stops the stream and contributes
no text. -/
theorem c2_scenarioA_hello_done :
    (processChunks initStream [chunkA, chunkB]).content = ("Hello".data) ∧
    (processChunks initStream [chunkA, chunkB]).isLoading = false ∧
    scanStep (processChunks initStream [chunkA, chunkB]).buf = .doneRec := by
  decide

/-- C3 counterexample: `braceBuf` is one complete JSON object with truthy
content `a\x7db` (its value contains a close brace), yet the decoder emits no
frame for it: the naive first-close-brace slice fails to parse, the complete
object is left in the buffer, and even receiving the same bytes again never
yields its content — refuting brace-balance boundary scanning. -/
theorem c3_first_brace_counterexample :
    parseObj braceBuf = some [(contentKey, ("a\x7db".data))] ∧
    processChunk initStream braceBuf = ⟨braceBuf, [], true⟩ ∧
    (processChunks initStream [braceBuf, braceBuf]).content = [] := by
  decide

/-- C3 amended: the decoder cuts each candidate record at the first close
brace after the first open brace, so a buffer of concatenated objects decodes
one frame per object exactly when no object text contains an interior close
brace (clean payloads); the payloads are forwarded in order and an
incomplete trailing record (no close brace yet) stays in the buffer. -/
theorem c3_amended_first_close_brace (ts : List Str) (tail : Str)
    (hg : ∀ t ∈ ts, goodText t) (htail : closeB ∉ tail) :
    processChunk initStream ((ts.map recordOf).flatten ++ tail)
      = ⟨tail, ts.flatten, true⟩ := by
  unfold processChunk
  rw [show initStream.buf ++ ((ts.map recordOf).flatten ++ tail)
      = (ts.map recordOf).flatten ++ tail by simp [initStream]]
  rw [runScan_records ts tail initStream.content initStream.isLoading hg
    (fun t ht => (hg t ht).2.1) htail]
  simp [initStream]

/-- Witness for the amended C3 theorem on two records and an incomplete
trailing record. -/
theorem c3_amended_first_close_brace_witness :
    processChunk initStream
        ((([("Hi ".data), ("there".data)]).map recordOf).flatten ++ ("\x7b\"content\":\"par".data))
      = ⟨("\x7b\"content\":\"par".data), ("Hi there".data), true⟩ :=
  (c3_amended_first_close_brace [("Hi ".data), ("there".data)]
    (("\x7b\"content\":\"par".data)) (by decide) (by decide)).trans (by decide)

/-- C10: once a `[DONE]` record has been decoded (the loading flag is down),
no record arriving later — in the same chunk or any later chunk — ever adds
to the assistant message content. -/
theorem c10_no_content_after_done (chunks more : List Str)
    (h : (processChunks initStream chunks).isLoading = false) :
    (processChunks (processChunks initStream chunks) more).content
      = (processChunks initStream chunks).content := by
  have hinv : DoneSt (processChunks initStream chunks) := by
    apply processChunks_inv
    intro hfalse
    exact absurd hfalse (by simp [initStream])
  rw [processChunks_frozen hinv h more]

/-- Witness for C10: a decoded `[DONE]` followed by a later content record
that is ignored. -/
theorem c10_no_content_after_done_witness :
    (processChunks initStream [("\x7b\"content\":\"[DONE]\"\x7d".data)]).isLoading = false ∧
    (processChunks (processChunks initStream [("\x7b\"content\":\"[DONE]\"\x7d".data)])
        [("\x7b\"content\":\"later\"\x7d".data)]).content
      = (processChunks initStream [("\x7b\"content\":\"[DONE]\"\x7d".data)]).content :=
  ⟨by decide,
   c10_no_content_after_done [("\x7b\"content\":\"[DONE]\"\x7d".data)]
     [("\x7b\"content\":\"later\"\x7d".data)] (by decide)⟩

/-! ## Claim theorems: session titles and persistence -/

/-- C5: the derived session title is the first 30 characters of the first
user message text, with an ellipsis appended exactly when the text is longer
than 30 characters; shorter texts become the title verbatim. -/
theorem c5_title_derivation (t : Str) :
    deriveTitle t = (if 30 < t.length then t.take 30 ++ ("...".data) else t) ∧
    (deriveTitle t = t.take 30 ++ ("...".data) ↔ 30 < t.length) := by
  constructor
  · unfold deriveTitle
    by_cases h : 30 < t.length
    · rw [if_pos h, if_pos h]
    · rw [if_neg h, if_neg h, List.take_of_length_le (by omega), List.append_nil]
  · constructor
    · intro heq
      by_contra h
      have hl : t.length ≤ 30 := by omega
      have ht : deriveTitle t = t := by
        unfold deriveTitle
        rw [if_neg h, List.take_of_length_le hl, List.append_nil]
      rw [ht] at heq
      have := congrArg List.length heq
      simp [List.length_take] at this
      omega
    · intro h
      unfold deriveTitle
      rw [if_pos h]

/-- C9: the local session-list update performed after the `updateSession`
persistence call is the same whether the call succeeds or fails; a
persistence failure never discards or alters the local title/preview
update. -/
theorem c9_persistence_failure_local_update (ok : Bool) (msgs : List Msg)
    (sessions : List SessionR) (cur : Option SessionR) (sid : Str) :
    titleUpdateEffect ok msgs sessions cur sid
      = titleUpdateEffect true msgs sessions cur sid := by
  cases ok with
  | true => rfl
  | false =>
    unfold titleUpdateEffect
    cases msgs with
    | nil => rfl
    | cons m rest =>
      cases rest with
      | nil =>
        dsimp only
        by_cases h : m.role = Role.user
        · rw [if_pos h, if_pos h]
          rfl
        · rw [if_neg h, if_neg h]
      | cons m2 rest2 => rfl

/-- The title effect never changes the message list. -/
theorem titleEffect_messages (st : AsmState) : (titleEffect st).messages = st.messages := by
  obtain ⟨ms, ti⟩ := st
  unfold titleEffect
  cases ms with
  | nil => rfl
  | cons m rest =>
    cases rest with
    | nil =>
      dsimp only
      by_cases h : m.role = Role.user
      · rw [if_pos h]
      · rw [if_neg h]
    | cons m2 rest2 => rfl

/-- `applyDelta` preserves the number of messages. -/
theorem updateLastMsg_length (ms : List Msg) (t : Str) :
    (updateLastMsg ms t).length = ms.length := by
  induction ms with
  | nil => rfl
  | cons m rest ih =>
    cases rest with
    | nil =>
      unfold updateLastMsg
      by_cases h : m.role = Role.assistant ∧ m.finalized = false
      · rw [if_pos h]; rfl
      · rw [if_neg h]
    | cons m2 rest2 =>
      unfold updateLastMsg
      simpa using ih

/-- `finalize` preserves the number of messages. -/
theorem finalizeLast_length (ms : List Msg) :
    (finalizeLast ms).length = ms.length := by
  induction ms with
  | nil => rfl
  | cons m rest ih =>
    cases rest with
    | nil =>
      unfold finalizeLast
      by_cases h : m.role = Role.assistant ∧ m.finalized = false
      · rw [if_pos h]; rfl
      · rw [if_neg h]
    | cons m2 rest2 =>
      unfold finalizeLast
      simpa using ih

/-- With other than exactly one message, the title effect is the identity. -/
theorem titleEffect_of_len (ms : List Msg) (ti : Option Str)
    (h : ms.length ≠ 1) : titleEffect ⟨ms, ti⟩ = ⟨ms, ti⟩ := by
  unfold titleEffect
  cases ms with
  | nil => rfl
  | cons m rest =>
    cases rest with
    | nil => simp at h
    | cons m2 rest2 => rfl

/-- With other than exactly one message, the single-message title premise
holds vacuously. -/
theorem firstMsgOk_of_len (ms : List Msg) (τ : Str) (h : ms.length ≠ 1) :
    firstMsgOk ms τ = true := by
  cases ms with
  | nil => rfl
  | cons m rest =>
    cases rest with
    | nil => simp at h
    | cons m2 rest2 => rfl

/-- Title preservation for the singleton-list delta and finalize cases:
the updated singleton keeps the title stable. -/
theorem singleton_step_stable {m m' : Msg} {ti : Option Str} {τ : Str}
    (ht : ti = some τ)
    (hok : firstMsgOk [m] τ = true)
    (hrole : m'.role = m.role)
    (hcontent : m'.role = Role.user → m'.content = m.content) :
    titleStable (titleEffect ⟨[m'], ti⟩) τ := by
  unfold titleEffect
  dsimp only
  by_cases hu : m'.role = Role.user
  · rw [if_pos hu]
    unfold firstMsgOk at hok
    dsimp only at hok
    rw [if_pos (hrole.symm.trans hu)] at hok
    have hd : deriveTitle m.content = τ := by simpa using hok
    refine ⟨?_, by simp, ?_⟩
    · dsimp only
      rw [hcontent hu, hd]
    · unfold firstMsgOk
      dsimp only
      rw [if_pos hu, hcontent hu, hd]
      simp
  · rw [if_neg hu]
    refine ⟨ht, by simp, ?_⟩
    unfold firstMsgOk
    dsimp only
    rw [if_neg hu]

/-- One assembler step preserves a derived title. -/
theorem asmStep_titleStable {st : AsmState} {τ : Str} (h : titleStable st τ) (op : Op) :
    titleStable (asmStep st op) τ := by
  obtain ⟨ms, ti⟩ := st
  obtain ⟨ht, hne, hok⟩ := h
  simp only at ht hne hok
  have hlen : 1 ≤ ms.length := by
    cases ms with
    | nil => exact absurd rfl hne
    | cons m rest => simp
  cases op with
  | user t =>
    unfold asmStep
    dsimp only
    have hl2 : (ms ++ [(⟨Role.user, t, true⟩ : Msg)]).length ≠ 1 := by
      simp only [List.length_append, List.length_cons, List.length_nil]
      omega
    rw [titleEffect_of_len _ _ hl2]
    exact ⟨ht, by simp, firstMsgOk_of_len _ _ hl2⟩
  | beginAssistant =>
    unfold asmStep
    dsimp only
    have hl2 : (ms ++ [(⟨Role.assistant, [], false⟩ : Msg)]).length ≠ 1 := by
      simp only [List.length_append, List.length_cons, List.length_nil]
      omega
    rw [titleEffect_of_len _ _ hl2]
    exact ⟨ht, by simp, firstMsgOk_of_len _ _ hl2⟩
  | delta t =>
    unfold asmStep
    dsimp only
    cases ms with
    | nil => exact absurd rfl hne
    | cons m rest =>
      cases rest with
      | cons m2 rest2 =>
        have hl2 : (updateLastMsg (m :: m2 :: rest2) t).length ≠ 1 := by
          rw [updateLastMsg_length]; simp
        rw [titleEffect_of_len _ _ hl2]
        refine ⟨ht, ?_, firstMsgOk_of_len _ _ hl2⟩
        intro hnil
        have := congrArg List.length hnil
        rw [updateLastMsg_length] at this
        simp at this
      | nil =>
        unfold updateLastMsg
        by_cases hcond : m.role = Role.assistant ∧ m.finalized = false
        · rw [if_pos hcond]
          refine singleton_step_stable ht hok rfl ?_
          intro hu
          dsimp only at hu
          rw [hcond.1] at hu
          exact absurd hu (by decide)
        · rw [if_neg hcond]
          exact singleton_step_stable ht hok rfl (fun _ => rfl)
  | finalizeMsg =>
    unfold asmStep
    dsimp only
    cases ms with
    | nil => exact absurd rfl hne
    | cons m rest =>
      cases rest with
      | cons m2 rest2 =>
        have hl2 : (finalizeLast (m :: m2 :: rest2)).length ≠ 1 := by
          rw [finalizeLast_length]; simp
        rw [titleEffect_of_len _ _ hl2]
        refine ⟨ht, ?_, firstMsgOk_of_len _ _ hl2⟩
        intro hnil
        have := congrArg List.length hnil
        rw [finalizeLast_length] at this
        simp at this
      | nil =>
        unfold finalizeLast
        by_cases hcond : m.role = Role.assistant ∧ m.finalized = false
        · rw [if_pos hcond]
          exact singleton_step_stable ht hok rfl (fun _ => rfl)
        · rw [if_neg hcond]
          exact singleton_step_stable ht hok rfl (fun _ => rfl)

/-- C6: once a session's title has been derived from its first user message,
applying any further assembler operations — user messages, assistant
messages, streamed deltas, finalization — never changes the title. -/
theorem c6_title_immutable (ops : List Op) (st : AsmState) (τ : Str)
    (h : titleStable st τ) :
    (applyOps st ops).title = st.title := by
  induction ops generalizing st with
  | nil => rfl
  | cons op rest ih =>
    show (applyOps (asmStep st op) rest).title = st.title
    have hstep := asmStep_titleStable h op
    rw [ih _ hstep, hstep.1, h.1]

/-- Witness for C6: a derived title survives an assistant stream and a second
user message. -/
theorem c6_title_immutable_witness :
    titleStable (asmStep ⟨[], none⟩ (.user ("hello".data))) (deriveTitle ("hello".data)) ∧
    (applyOps (asmStep ⟨[], none⟩ (.user ("hello".data)))
        [.beginAssistant, .delta ("wo".data), .delta ("rld".data), .finalizeMsg,
         .user ("second message".data)]).title
      = (asmStep ⟨[], none⟩ (.user ("hello".data))).title :=
  ⟨⟨by decide, by decide, by decide⟩,
   c6_title_immutable
     [.beginAssistant, .delta ("wo".data), .delta ("rld".data), .finalizeMsg,
      .user ("second message".data)]
     (asmStep ⟨[], none⟩ (.user ("hello".data))) (deriveTitle ("hello".data))
     ⟨by decide, by decide, by decide⟩⟩

/-- The last-message content ignores preceding messages. -/
theorem lastContent_cons {m : Msg} {l : List Msg} (h : l ≠ []) :
    lastContent (m :: l) = lastContent l := by
  cases l with
  | nil => exact absurd rfl h
  | cons m2 rest => rfl

/-- The last-message openness ignores preceding messages. -/
theorem lastIsOpenAsst_cons {m : Msg} {l : List Msg} (h : l ≠ []) :
    lastIsOpenAsst (m :: l) = lastIsOpenAsst l := by
  cases l with
  | nil => exact absurd rfl h
  | cons m2 rest => rfl

/-- A delta on a state whose last message is an open assistant message
appends to that message's content and keeps it open. -/
theorem updateLast_open {ms : List Msg} (h : lastIsOpenAsst ms = true) (t : Str) :
    lastContent (updateLastMsg ms t) = lastContent ms ++ t ∧
    lastIsOpenAsst (updateLastMsg ms t) = true := by
  induction ms with
  | nil => simp [lastIsOpenAsst] at h
  | cons m rest ih =>
    cases rest with
    | nil =>
      have hc : m.role = Role.assistant ∧ m.finalized = false := by
        unfold lastIsOpenAsst at h
        exact of_decide_eq_true h
      unfold updateLastMsg
      rw [if_pos hc]
      constructor
      · rfl
      · unfold lastIsOpenAsst
        dsimp only
        rw [decide_eq_true_eq]
        exact hc
    | cons m2 rest2 =>
      have hne : updateLastMsg (m2 :: rest2) t ≠ [] := by
        intro h0
        have := congrArg List.length h0
        rw [updateLastMsg_length] at this
        simp at this
      have hh : lastIsOpenAsst (m2 :: rest2) = true := by
        rw [← lastIsOpenAsst_cons (m := m) (by simp)]
        exact h
      unfold updateLastMsg
      rw [lastContent_cons hne, lastIsOpenAsst_cons hne,
        lastContent_cons (m := m) (by simp)]
      exact ih hh

/-- The message list after a delta step. -/
theorem asmStep_delta_messages (st : AsmState) (t : Str) :
    (asmStep st (.delta t)).messages = updateLastMsg st.messages t := by
  unfold asmStep
  dsimp only
  exact titleEffect_messages _

/-- Folding a list of deltas over an open assistant message appends their
concatenation to its content. -/
theorem deltas_concat (chunks : List Str) (st : AsmState)
    (h : lastIsOpenAsst st.messages = true) :
    lastContent ((applyOps st (chunks.map Op.delta)).messages)
      = lastContent st.messages ++ chunks.flatten ∧
    lastIsOpenAsst ((applyOps st (chunks.map Op.delta)).messages) = true := by
  induction chunks generalizing st with
  | nil => exact ⟨by simp [applyOps], by simpa [applyOps] using h⟩
  | cons c cs ih =>
    have hstep : (asmStep st (.delta c)).messages = updateLastMsg st.messages c :=
      asmStep_delta_messages st c
    have hopen := updateLast_open h c
    have hrec := ih (asmStep st (.delta c)) (by rw [hstep]; exact hopen.2)
    constructor
    · show lastContent ((applyOps (asmStep st (.delta c)) (cs.map Op.delta)).messages) = _
      rw [hrec.1, hstep, hopen.1]
      simp
    · exact hrec.2

/-- C1: the block sequence is a pure function of the accumulated content —
for any final content and any partition of it into delta chunks, the scan
after the last chunk has been applied to an (initially empty) open assistant
message equals the scan of the complete string at once. -/
theorem c1_streaming_oneshot_equivalence (chunks : List Str) (st : AsmState)
    (finalized : Bool)
    (hopen : lastIsOpenAsst st.messages = true)
    (hempty : lastContent st.messages = []) :
    scanBlocks (lastContent ((applyOps st (chunks.map Op.delta)).messages)) finalized
      = scanBlocks chunks.flatten finalized := by
  rw [(deltas_concat chunks st hopen).1, hempty, List.nil_append]

/-- Witness for C1: two chunks of a small markdown text scanned mid-stream. -/
theorem c1_streaming_oneshot_witness :
    lastIsOpenAsst ([⟨Role.user, ("hi".data), true⟩,
        ⟨Role.assistant, [], false⟩] : List Msg) = true ∧
    scanBlocks (lastContent ((applyOps
        ⟨[⟨Role.user, ("hi".data), true⟩, ⟨Role.assistant, [], false⟩], none⟩
        ([("# he".data), ("ad\n- item".data)].map Op.delta)).messages)) false
      = scanBlocks ([("# he".data), ("ad\n- item".data)] : List Str).flatten false :=
  ⟨by decide,
   c1_streaming_oneshot_equivalence [("# he".data), ("ad\n- item".data)]
     ⟨[⟨Role.user, ("hi".data), true⟩, ⟨Role.assistant, [], false⟩], none⟩
     false (by decide) (by decide)⟩

/-! ## Scanner lemmas -/

/-- A separator-free piece splits to itself. -/
theorem splitOnChar_nosep {sep : Char} {l : Str} (h : sep ∉ l) :
    splitOnChar sep l = [l] := by
  induction l with
  | nil => rfl
  | cons c r ih =>
    have hc : ¬ c = sep := by intro hh; exact h (by simp [hh])
    unfold splitOnChar
    rw [if_neg hc, ih (fun hr => h (by simp [hr]))]

/-- Splitting peels off one separator-free piece at a time. -/
theorem splitOnChar_app {sep : Char} {l : Str} (h : sep ∉ l) (rest : Str) :
    splitOnChar sep (l ++ sep :: rest) = l :: splitOnChar sep rest := by
  induction l with
  | nil =>
    rw [List.nil_append, splitOnChar.eq_def]
    dsimp only
    rw [if_pos rfl]
  | cons c r ih =>
    have hc : ¬ c = sep := by intro hh; exact h (by simp [hh])
    rw [List.cons_append, splitOnChar.eq_def]
    dsimp only
    rw [if_neg hc, ih (fun hr => h (by simp [hr]))]

/-- Splitting inverts joining for newline-free lines. -/
theorem split_join {ls : List Str} (hne : ls ≠ []) (h : ∀ l ∈ ls, '\n' ∉ l) :
    splitLines (joinLines ls) = ls := by
  induction ls with
  | nil => exact absurd rfl hne
  | cons l rest ih =>
    cases rest with
    | nil =>
      unfold joinLines splitLines
      exact splitOnChar_nosep (h l (by simp))
    | cons l2 rest2 =>
      unfold joinLines splitLines
      rw [splitOnChar_app (h l (by simp)) _]
      rw [show splitOnChar '\n' (joinLines (l2 :: rest2)) = splitLines (joinLines (l2 :: rest2)) from rfl]
      rw [ih (by simp) (fun x hx => h x (by simp [hx]))]

/-- The line scanner emits nothing on an empty line list. -/
theorem scanLinesF_nil (f : Nat) (finalized : Bool) :
    scanLinesF f [] finalized = [] := by
  cases f with
  | zero => rfl
  | succ f => rfl

/-- The fence-open test accepts a marker-led line. -/
theorem isFenceOpenB_marker (lang : Str) :
    isFenceOpenB (fenceMarker ++ lang) = true := by
  rfl

/-- The language region of a marker-led line. -/
theorem fenceLang_marker (lang : Str) : fenceLang (fenceMarker ++ lang) = lang := by
  rfl

/-- The fence block for a non-mermaid tag is a code block. -/
theorem mkFenceBlock_code {lang : Str} (hm : (trimWs lang == mermaidTag) = false)
    (body : List Str) :
    mkFenceBlock (trimWs lang) body = Block.codeBlock (trimWs lang) (joinLines body) := by
  unfold mkFenceBlock
  rw [if_neg (by simp [hm])]

/-- C4: content that opens a fence and never closes it yields no block at all
while the message streams — in particular zero code and zero diagram
blocks — and exactly one code block with the captured text once the message
is finalized; a closing fence likewise completes the block mid-stream. -/
theorem c4_fence_pendingness (lang : Str) (body : List Str)
    (hl : '\n' ∉ lang)
    (hb : ∀ x ∈ body, '\n' ∉ x)
    (hc : ∀ x ∈ body, isFenceCloseB x = false)
    (hm : (trimWs lang == mermaidTag) = false) :
    scanBlocks (joinLines ((fenceMarker ++ lang) :: body)) false = [] ∧
    scanBlocks (joinLines ((fenceMarker ++ lang) :: body)) true
      = [Block.codeBlock (trimWs lang) (joinLines body)] ∧
    scanBlocks (joinLines ((fenceMarker ++ lang) :: (body ++ [fenceMarker]))) false
      = [Block.codeBlock (trimWs lang) (joinLines body)] := by
  have hfm : '\n' ∉ fenceMarker ++ lang := by
    intro hmem
    rcases List.mem_append.1 hmem with h1 | h2
    · revert h1; decide
    · exact hl h2
  have hcfm : (fun x => !isFenceCloseB x) fenceMarker = false := by decide
  have hall : ∀ x ∈ body, (fun x => !isFenceCloseB x) x = true := by
    intro x hx
    simp [hc x hx]
  have hsplit1 : splitLines (joinLines ((fenceMarker ++ lang) :: body))
      = (fenceMarker ++ lang) :: body := by
    apply split_join (by simp)
    intro x hx
    rcases List.mem_cons.1 hx with rfl | hx2
    · exact hfm
    · exact hb x hx2
  have hsplit2 : splitLines (joinLines ((fenceMarker ++ lang) :: (body ++ [fenceMarker])))
      = (fenceMarker ++ lang) :: (body ++ [fenceMarker]) := by
    apply split_join (by simp)
    intro x hx
    rcases List.mem_cons.1 hx with rfl | hx2
    · exact hfm
    · rcases List.mem_append.1 hx2 with h3 | h4
      · exact hb x h3
      · rw [List.mem_singleton.1 h4]
        decide
  refine ⟨?_, ?_, ?_⟩
  · unfold scanBlocks
    rw [hsplit1]
    simp only [scanLinesF]
    rw [isFenceOpenB_marker, dropWhileAll hall]
    simp
  · unfold scanBlocks
    rw [hsplit1]
    simp only [scanLinesF]
    rw [isFenceOpenB_marker, dropWhileAll hall, fenceLang_marker, takeWhileAll hall,
      mkFenceBlock_code hm]
    simp
  · unfold scanBlocks
    rw [hsplit2]
    simp only [scanLinesF]
    rw [isFenceOpenB_marker, dropWhileAppStop hall hcfm, fenceLang_marker,
      takeWhileAppStop hall hcfm, mkFenceBlock_code hm]
    simp [scanLinesF_nil]

/-- Witness for C4: the spec's fence-pendingness example, an unterminated
python fence around `print(1)`. -/
theorem c4_fence_pendingness_witness :
    scanBlocks (joinLines ((fenceMarker ++ ("python".data)) :: [("print(1)".data)])) false
      = [] ∧
    scanBlocks (joinLines ((fenceMarker ++ ("python".data)) :: [("print(1)".data)])) true
      = [Block.codeBlock (trimWs ("python".data)) (joinLines [("print(1)".data)])] :=
  ⟨(c4_fence_pendingness ("python".data) [("print(1)".data)]
      (by decide) (by decide) (by decide) (by decide)).1,
   (c4_fence_pendingness ("python".data) [("print(1)".data)]
      (by decide) (by decide) (by decide) (by decide)).2.1⟩

/-! ## Claim theorems: incremental UTF-8 decoding -/

/-- Chunk decoding with an output accumulator. -/
theorem u8DecodeChunk_acc (bs : List Nat) (st : U8State) (acc : Str) :
    bs.foldl (fun p b => ((u8Step p.1 b).1, p.2 ++ (u8Step p.1 b).2)) (st, acc)
      = ((u8DecodeChunk st bs).1, acc ++ (u8DecodeChunk st bs).2) := by
  induction bs generalizing st acc with
  | nil => simp [u8DecodeChunk]
  | cons b bs ih =>
    show bs.foldl _ ((u8Step st b).1, acc ++ (u8Step st b).2) = _
    rw [ih]
    have hrhs : u8DecodeChunk st (b :: bs)
        = ((u8DecodeChunk (u8Step st b).1 bs).1,
           (u8Step st b).2 ++ (u8DecodeChunk (u8Step st b).1 bs).2) := by
      show bs.foldl _ ((u8Step st b).1, [] ++ (u8Step st b).2) = _
      rw [ih]
      simp
    rw [hrhs]
    simp

/-- C7: incrementally decoding a byte stream chunk by chunk — whatever the
chunk boundaries, including boundaries inside a multi-byte sequence — and
concatenating the emitted texts gives exactly the state and text of decoding
the whole byte stream at once; no character is dropped or corrupted at a
chunk boundary. -/
theorem c7_utf8_incremental_eq_oneshot (chunks : List (List Nat)) :
    u8DecodeStream chunks = u8DecodeChunk ⟨0, 0⟩ chunks.flatten := by
  suffices h : ∀ (cs : List (List Nat)) (st : U8State) (acc : Str),
      cs.foldl (fun p c => ((u8DecodeChunk p.1 c).1, p.2 ++ (u8DecodeChunk p.1 c).2)) (st, acc)
        = ((u8DecodeChunk st cs.flatten).1, acc ++ (u8DecodeChunk st cs.flatten).2) by
    have := h chunks ⟨0, 0⟩ []
    unfold u8DecodeStream
    rw [this]
    simp
  intro cs
  induction cs with
  | nil => intro st acc; simp [u8DecodeChunk]
  | cons c cs ih =>
    intro st acc
    show cs.foldl _ ((u8DecodeChunk st c).1, acc ++ (u8DecodeChunk st c).2) = _
    rw [ih]
    have hsplit : u8DecodeChunk st (c :: cs).flatten
        = ((u8DecodeChunk (u8DecodeChunk st c).1 cs.flatten).1,
           (u8DecodeChunk st c).2 ++ (u8DecodeChunk (u8DecodeChunk st c).1 cs.flatten).2) := by
      rw [List.flatten_cons]
      show (c ++ cs.flatten).foldl _ (st, []) = _
      rw [List.foldl_append]
      rw [show c.foldl (fun p b => ((u8Step p.1 b).1, p.2 ++ (u8Step p.1 b).2)) ((st, []) : U8State × Str)
          = ((u8DecodeChunk st c).1, (u8DecodeChunk st c).2) from rfl]
      exact u8DecodeChunk_acc cs.flatten (u8DecodeChunk st c).1 (u8DecodeChunk st c).2
    rw [hsplit]
    simp

/-! ## Claim theorems: diagram render states -/

/-- C8 counterexample: the `CodeBlock` effect receives no information about
whether the owning message is finalized; when the mermaid syntax check
rejects the (still streaming, incomplete) diagram text, the component
records the failure message immediately — the block is in the `Failed`
state, not still `Validating` as the claim requires mid-stream. -/
theorem c8_failed_while_streaming_counterexample :
    outcomeState (codeBlockRender (fun _ => false) id id mermaidTag
        ("graph TD;\nA--".data))
      = RenderState.failed mermaidErrMsg ∧
    outcomeState (codeBlockRender (fun _ => false) id id mermaidTag
        ("graph TD;\nA--".data))
      ≠ RenderState.validating := by
  constructor
  · rfl
  · intro h
    exact absurd h (by decide)

/-- C8 amended: a failed mermaid validation puts the block in the `Failed`
state immediately, whether or not the owning message is finalized; the
failure is not permanent while text still changes — the effect re-runs on
the next scanned value, and a value that validates moves the block to
`Rendered`. -/
theorem c8_amended_failure_and_retry (valid : Str → Bool) (svgOf hlOf : Str → Str)
    (value value' : Str)
    (h1 : valid (trimWs value) = false) (h2 : valid (trimWs value') = true) :
    outcomeState (codeBlockRender valid svgOf hlOf mermaidTag value)
      = RenderState.failed mermaidErrMsg ∧
    outcomeState (codeBlockRender valid svgOf hlOf mermaidTag value')
      = RenderState.rendered (svgOf (trimWs value')) := by
  constructor
  · unfold codeBlockRender
    rw [if_pos rfl, if_neg (by simp [h1])]
    rfl
  · unfold codeBlockRender
    rw [if_pos rfl, if_pos h2]
    rfl

/-- Witness for the amended C8 theorem: a validator accepting exactly `ok`,
one failing value and one succeeding value. -/
theorem c8_amended_failure_and_retry_witness :
    (fun s => s == ("ok".data)) (trimWs ("graph TD".data)) = false ∧
    outcomeState (codeBlockRender (fun s => s == ("ok".data)) id id mermaidTag
        ("graph TD".data))
      = RenderState.failed mermaidErrMsg ∧
    outcomeState (codeBlockRender (fun s => s == ("ok".data)) id id mermaidTag
        (" ok ".data))
      = RenderState.rendered (id (trimWs (" ok ".data))) :=
  ⟨by decide,
   (c8_amended_failure_and_retry (fun s => s == ("ok".data)) id id
      ("graph TD".data) (" ok ".data) (by decide) (by decide)).1,
   (c8_amended_failure_and_retry (fun s => s == ("ok".data)) id id
      ("graph TD".data) (" ok ".data) (by decide) (by decide)).2⟩
